import Mathlib

/-!
# An in-process string cache with per-entry deadlines (`cache.go`)

A shallow embedding of the Go package `cache` and a verification of its
read/write laws.

## Modelling conventions

* `time.Time` is embedded as the signed distance of an instant from Go's zero
  instant (January 1, year 1, 00:00:00 UTC), an `Int`.  `IsZero` is equality
  with `0` and `Before` is the strict order on instants.  All instants lie on
  one time line: the monotonic reading Go may attach to a `time.Time` is not
  modelled.
* `time.Now()` is an explicit argument: every function that reads the clock
  receives the reading.
* `map[string]item` is an association list with pairwise distinct keys
  (`AList`); a `nil` map is `none`.  Assigning into a `nil` map panics in Go,
  so the two writes return an `Option`.
* `range` over a map yields every key of the map once, in an order the
  language leaves open.  `Keys` therefore receives the visiting order, and the
  theorems about it hold for each order that enumerates the keys of the map.
  Its `Get` deletes only the key being visited, so no pending key is dropped
  from the iteration.
* A sequence of client calls is a list of `Call`s.  A `keys` call carries the
  visits of its loop; the laws about sequences hold for arbitrary visits, which
  include those enumerating the map.
-/

namespace cache

/-- Embedding of `time.Time`: the offset of the instant from the zero instant. -/
abbrev Time := Int

/-- Embedding of `Time.IsZero`. -/
def Time.IsZero (t : Time) : Bool := t == 0

/-- Embedding of `Time.Before`: `t` is strictly earlier than `u`. -/
def Time.Before (t u : Time) : Bool := decide (t < u)

/-- Embedding of `type item struct { value string; expiration time.Time }`. -/
structure item where
  value : String
  expiration : Time
deriving DecidableEq

/-- Embedding of `(*item).isExpired`; `now` is the reading of `time.Now()`. -/
def item.isExpired (i : item) (now : Time) : Bool :=
  if Time.IsZero i.expiration then
    false
  else
    Time.Before i.expiration now

/-- The allocated Go map `map[string]item`. -/
abbrev Items := AList (fun _ : String => item)

/-- Embedding of `type Cache struct { items map[string]item }`;
`none` is the `nil` map of a zero-value `Cache{}`. -/
structure Cache where
  items : Option Items

/-- Embedding of `NewCache`: an allocated, empty map. -/
def NewCache : Cache := ⟨some ∅⟩

/-- The entry bound to `key`, as the map index expression `c.items[key]` reads it
(`none` when the key is unbound or the map is `nil`). -/
def Cache.lookup (c : Cache) (key : String) : Option item :=
  match c.items with
  | none => none
  | some m => m.lookup key

/-- The keys bound in the map (none in a `nil` map). -/
def Cache.keyList (c : Cache) : List String :=
  match c.items with
  | none => []
  | some m => m.keys

/-- Embedding of the builtin `delete(c.items, key)`; a no-op on a `nil` map. -/
def Cache.delete (c : Cache) (key : String) : Cache :=
  match c.items with
  | none => c
  | some m => ⟨some (m.erase key)⟩

/-- Embedding of `Cache.Get`: the returned pair and the cache afterwards.
`now` is the clock reading taken by `isExpired`. -/
def Cache.Get (c : Cache) (key : String) (now : Time) : (String × Bool) × Cache :=
  match c.lookup key with
  | none => (("", false), c)
  | some i =>
    if i.isExpired now then
      (("", false), c.delete key)
    else
      ((i.value, true), c)

/-- The map assignment `c.items[key] = i`; it panics (`none`) on a `nil` map. -/
def Cache.assign (c : Cache) (key : String) (i : item) : Option Cache :=
  match c.items with
  | none => none
  | some m => some ⟨some (m.insert key i)⟩

/-- Embedding of `Cache.Put`: the entry carries the zero `time.Time`. -/
def Cache.Put (c : Cache) (key value : String) : Option Cache :=
  c.assign key ⟨value, 0⟩

/-- Embedding of `Cache.PutTill`. -/
def Cache.PutTill (c : Cache) (key value : String) (deadline : Time) : Option Cache :=
  c.assign key ⟨value, deadline⟩

/-- The `for k := range c.items` loop of `Cache.Keys`.  Each visit is a key
together with the clock reading its `Get` takes; `result` is the slice built
so far. -/
def keysLoop : List (String × Time) → Cache → List String → List String × Cache
  | [], c, result => (result, c)
  | (k, t) :: rest, c, result =>
    let r := c.Get k t
    keysLoop rest r.2 (if r.1.2 then result ++ [k] else result)

/-- Embedding of `Cache.Keys` with one clock reading per visited entry. -/
def Cache.KeysAt (c : Cache) (visits : List (String × Time)) : List String × Cache :=
  keysLoop visits c []

/-- Embedding of `Cache.Keys` when every clock reading of the call is `now`;
`order` is the order in which `range` yields the keys. -/
def Cache.Keys (c : Cache) (order : List String) (now : Time) : List String × Cache :=
  c.KeysAt (order.map fun k => (k, now))

/-- One call on the cache made by a client.  A `get` carries the clock reading
its expiry check takes, and a `keys` carries the visits of its loop (each
visited key with the clock reading of its check). -/
inductive Call where
  | put (key value : String)
  | putTill (key value : String) (deadline : Time)
  | get (key : String) (now : Time)
  | keys (visits : List (String × Time))

/-- Whether the call is a write (`Put` or `PutTill`) naming `k`. -/
def Call.writes (k : String) : Call → Bool
  | .put key _ => key == k
  | .putTill key _ _ => key == k
  | .get _ _ => false
  | .keys _ => false

/-- Whether the call is a write as the test issues them: a `Put`, or a
`PutTill` whose deadline is not the zero instant. -/
def Call.isTestWrite : Call → Bool
  | .put _ _ => true
  | .putTill _ _ deadline => !Time.IsZero deadline
  | .get _ _ => false
  | .keys _ => false

/-- The cache after one call; `none` when the call panics. -/
def Cache.call (c : Cache) : Call → Option Cache
  | .put key value => c.Put key value
  | .putTill key value deadline => c.PutTill key value deadline
  | .get key now => some (c.Get key now).2
  | .keys visits => some (c.KeysAt visits).2

/-- The cache after a sequence of calls made one after the other. -/
def Cache.run (c : Cache) : List Call → Option Cache
  | [] => some c
  | x :: xs => (c.call x).bind fun c2 => c2.run xs

/-- The last call of the sequence that is a write naming `k`, if there is one. -/
def lastWrite (k : String) : List Call → Option Call
  | [] => none
  | x :: xs =>
    match lastWrite k xs with
    | some w => some w
    | none => if x.writes k then some x else none

/-- The entry a write stores: `Put` stores the zero expiration, `PutTill` its
deadline.  Reads store nothing. -/
def Call.entry : Call → Option item
  | .put _ value => some ⟨value, 0⟩
  | .putTill _ value deadline => some ⟨value, deadline⟩
  | .get _ _ => none
  | .keys _ => none

/-- The pair `Get` returns, as a function of the entry the map index yields. -/
def getResult (o : Option item) (now : Time) : String × Bool :=
  match o with
  | none => ("", false)
  | some i => if i.isExpired now then ("", false) else (i.value, true)

/-- What is left of a map slot after the eviction check made at `now`. -/
def keepLive (o : Option item) (now : Time) : Option item :=
  o.filter fun i => !i.isExpired now

/-! ## Basic facts about the map operations -/

theorem lookup_mk (m : Items) (k : String) : (Cache.mk (some m)).lookup k = m.lookup k := rfl

theorem assign_mk (m : Items) (k : String) (i : item) :
    (Cache.mk (some m)).assign k i = some ⟨some (m.insert k i)⟩ := rfl

theorem lookup_assign_self (m : Items) (k : String) (i : item) :
    (Cache.mk (some (m.insert k i))).lookup k = some i := by
  simp [Cache.lookup]

theorem isExpired_zero (v : String) (now : Time) : (item.mk v 0).isExpired now = false := by
  simp [item.isExpired, Time.IsZero]

theorem isExpired_iff (i : item) (now : Time) :
    i.isExpired now = true ↔ i.expiration ≠ 0 ∧ i.expiration < now := by
  simp [item.isExpired, Time.IsZero, Time.Before]

theorem Get_of_lookup_none {c : Cache} {k : String} (now : Time) (h : c.lookup k = none) :
    c.Get k now = (("", false), c) := by
  simp [Cache.Get, h]

theorem Get_of_expired {c : Cache} {k : String} {i : item} {now : Time}
    (h : c.lookup k = some i) (he : i.isExpired now = true) :
    c.Get k now = (("", false), c.delete k) := by
  simp [Cache.Get, h, he]

theorem Get_of_live {c : Cache} {k : String} {i : item} {now : Time}
    (h : c.lookup k = some i) (he : i.isExpired now = false) :
    c.Get k now = ((i.value, true), c) := by
  simp [Cache.Get, h, he]

theorem Get_fst (c : Cache) (k : String) (now : Time) :
    (c.Get k now).1 = getResult (c.lookup k) now := by
  unfold Cache.Get getResult
  cases c.lookup k with
  | none => rfl
  | some i => cases he : i.isExpired now <;> simp [he]

theorem lookup_delete (c : Cache) (k k' : String) :
    (c.delete k).lookup k' = if k' = k then none else c.lookup k' := by
  obtain ⟨_ | m⟩ := c
  · simp [Cache.delete, Cache.lookup]
  · by_cases h : k' = k
    · subst h; simp [Cache.delete, Cache.lookup]
    · simp [Cache.delete, Cache.lookup, h, AList.lookup_erase_ne h]

theorem lookup_Get (c : Cache) (k k' : String) (now : Time) :
    (c.Get k now).2.lookup k' = if k' = k then keepLive (c.lookup k) now else c.lookup k' := by
  cases hl : c.lookup k with
  | none =>
    rw [Get_of_lookup_none now hl]
    by_cases h : k' = k
    · subst h; simp [hl, keepLive]
    · simp [h]
  | some i =>
    cases he : i.isExpired now with
    | true =>
      rw [Get_of_expired hl he, lookup_delete]
      by_cases h : k' = k <;> simp [h, keepLive, Option.filter, he]
    | false =>
      rw [Get_of_live hl he]
      by_cases h : k' = k
      · subst h; simp [hl, keepLive, Option.filter, he]
      · simp [h]

theorem getResult_keepLive (o : Option item) (now : Time) :
    getResult (keepLive o now) now = getResult o now := by
  cases o with
  | none => rfl
  | some i =>
    cases he : i.isExpired now <;> simp [keepLive, Option.filter, getResult, he]

theorem keepLive_keepLive (o : Option item) (now : Time) :
    keepLive (keepLive o now) now = keepLive o now := by
  cases o with
  | none => rfl
  | some i =>
    cases he : i.isExpired now <;> simp [keepLive, Option.filter, he]

/-- A `Get` made at `now` does not change what any `Get` made at `now` returns. -/
theorem Get_fst_after_Get (c : Cache) (k k' : String) (now : Time) :
    ((c.Get k now).2.Get k' now).1 = (c.Get k' now).1 := by
  rw [Get_fst, Get_fst, lookup_Get]
  by_cases h : k' = k
  · subst h; simp [getResult_keepLive]
  · simp [h]

theorem keysLoop_fst (now : Time) (order : List String) (c : Cache) (acc : List String) :
    (keysLoop (order.map fun k => (k, now)) c acc).1 =
      acc ++ order.filter fun k => (c.Get k now).1.2 := by
  induction order generalizing c acc with
  | nil => simp [keysLoop]
  | cons k rest ih =>
    simp only [List.map_cons, keysLoop, ih, Get_fst_after_Get, List.filter_cons]
    cases (c.Get k now).1.2 <;> simp

theorem keysLoop_lookup (now : Time) (order : List String) (c : Cache) (acc : List String)
    (k' : String) :
    (keysLoop (order.map fun k => (k, now)) c acc).2.lookup k' =
      if k' ∈ order then keepLive (c.lookup k') now else c.lookup k' := by
  induction order generalizing c acc with
  | nil => simp [keysLoop]
  | cons k rest ih =>
    simp only [List.map_cons, keysLoop, ih, lookup_Get, List.mem_cons]
    by_cases h : k' = k
    · subst h
      by_cases hr : k' ∈ rest <;> simp [hr, keepLive_keepLive]
    · simp [h]

theorem mem_keyList_iff (c : Cache) (k : String) :
    k ∈ c.keyList ↔ (c.lookup k).isSome = true := by
  obtain ⟨_ | m⟩ := c
  · simp [Cache.keyList, Cache.lookup]
  · simp only [Cache.keyList, Cache.lookup]
    rw [AList.lookup_isSome, AList.mem_keys]

theorem keyList_nodup (c : Cache) : c.keyList.Nodup := by
  obtain ⟨_ | m⟩ := c
  · simp [Cache.keyList]
  · exact m.keys_nodup

theorem mem_keyList_of_found {c : Cache} {k : String} {now : Time}
    (h : (c.Get k now).1.2 = true) : k ∈ c.keyList := by
  rw [mem_keyList_iff]
  rw [Get_fst] at h
  cases hl : c.lookup k with
  | none => simp [hl, getResult] at h
  | some i => rfl

theorem lookup_assign {c c2 : Cache} {k : String} {i : item} (h : c.assign k i = some c2)
    (k2 : String) : c2.lookup k2 = if k2 = k then some i else c.lookup k2 := by
  obtain ⟨_ | m⟩ := c
  · simp [Cache.assign] at h
  · simp only [Cache.assign, Option.some.injEq] at h
    subst h
    by_cases hk : k2 = k
    · subst hk; simp [Cache.lookup]
    · simp [Cache.lookup, hk, AList.lookup_insert_ne hk]

theorem assign_isSome {c : Cache} (h : c.items.isSome = true) (k : String) (i : item) :
    ∃ c2, c.assign k i = some c2 ∧ c2.items.isSome = true := by
  obtain ⟨_ | m⟩ := c
  · simp at h
  · exact ⟨_, rfl, rfl⟩

theorem delete_isSome (c : Cache) (k : String) :
    (c.delete k).items.isSome = c.items.isSome := by
  obtain ⟨_ | m⟩ := c <;> rfl

theorem Get_isSome (c : Cache) (k : String) (now : Time) :
    (c.Get k now).2.items.isSome = c.items.isSome := by
  unfold Cache.Get
  cases c.lookup k with
  | none => rfl
  | some i => cases he : i.isExpired now <;> simp [he, delete_isSome]

theorem keysLoop_isSome (visits : List (String × Time)) (c : Cache) (acc : List String) :
    (keysLoop visits c acc).2.items.isSome = c.items.isSome := by
  induction visits generalizing c acc with
  | nil => rfl
  | cons x rest ih =>
    obtain ⟨k, t⟩ := x
    simp only [keysLoop, ih, Get_isSome]

/-- The loop of `Keys` changes a slot of the map only by the eviction checks of
the visits to its key. -/
theorem keysLoop_lookup_none (visits : List (String × Time)) (c : Cache) (acc : List String)
    (k : String) (h : c.lookup k = none) : (keysLoop visits c acc).2.lookup k = none := by
  induction visits generalizing c acc with
  | nil => exact h
  | cons x rest ih =>
    obtain ⟨k2, t⟩ := x
    simp only [keysLoop]
    apply ih
    rw [lookup_Get]
    by_cases hk : k = k2
    · subst hk; simp [h, keepLive]
    · simp [hk, h]

/-- On an allocated map every call completes and leaves the map allocated. -/
theorem call_isSome {c : Cache} (h : c.items.isSome = true) (x : Call) :
    ∃ c2, c.call x = some c2 ∧ c2.items.isSome = true := by
  cases x with
  | put key value => exact assign_isSome h key _
  | putTill key value deadline => exact assign_isSome h key _
  | get key now => exact ⟨_, rfl, by rw [Get_isSome]; exact h⟩
  | keys visits => exact ⟨_, rfl, by rw [Cache.KeysAt, keysLoop_isSome]; exact h⟩

/-- A call that is not a write naming `k` leaves an unbound `k` unbound. -/
theorem call_lookup_none {c c2 : Cache} {x : Call} {k : String} (hx : x.writes k = false)
    (hc : c.call x = some c2) (h : c.lookup k = none) : c2.lookup k = none := by
  cases x with
  | put key value =>
    have hk : k ≠ key := by
      intro hk; simp [Call.writes, hk] at hx
    rw [lookup_assign hc k, if_neg hk, h]
  | putTill key value deadline =>
    have hk : k ≠ key := by
      intro hk; simp [Call.writes, hk] at hx
    rw [lookup_assign hc k, if_neg hk, h]
  | get key now =>
    simp only [Cache.call, Option.some.injEq] at hc
    subst hc
    rw [lookup_Get]
    by_cases hk : k = key
    · subst hk; simp [h, keepLive]
    · simp [hk, h]
  | keys visits =>
    simp only [Cache.call, Option.some.injEq] at hc
    subst hc
    exact keysLoop_lookup_none visits c [] k h

/-- A sequence of calls without a write naming `k`, run on an allocated map in
which `k` is unbound, completes and leaves `k` unbound. -/
theorem run_lookup_none (calls : List Call) (k : String)
    (hw : ∀ x ∈ calls, x.writes k = false) (c : Cache)
    (ha : c.items.isSome = true) (h : c.lookup k = none) :
    ∃ c2, c.run calls = some c2 ∧ c2.lookup k = none := by
  induction calls generalizing c with
  | nil => exact ⟨c, rfl, h⟩
  | cons x xs ih =>
    obtain ⟨c1, hc1, ha1⟩ := call_isSome ha x
    have h1 := call_lookup_none (hw x (List.mem_cons_self _ _)) hc1 h
    obtain ⟨c2, hc2, h2⟩ := ih (fun y hy => hw y (List.mem_cons_of_mem _ hy)) c1 ha1 h1
    exact ⟨c2, by simp [Cache.run, hc1, hc2], h2⟩

/-- A write rebinds the key it names to the entry it carries and leaves every
other key as it was. -/
theorem call_lookup_write {c c2 : Cache} {x : Call} (hx : x.isTestWrite = true)
    (hc : c.call x = some c2) (k : String) :
    c2.lookup k = if x.writes k = true then x.entry else c.lookup k := by
  cases x with
  | put key value =>
    rw [lookup_assign hc k]
    by_cases hk : k = key
    · subst hk; simp [Call.writes, Call.entry]
    · have hk2 : ¬ key = k := fun e => hk e.symm
      simp [Call.writes, hk, hk2]
  | putTill key value deadline =>
    rw [lookup_assign hc k]
    by_cases hk : k = key
    · subst hk; simp [Call.writes, Call.entry]
    · have hk2 : ¬ key = k := fun e => hk e.symm
      simp [Call.writes, hk, hk2]
  | get key now => simp [Call.isTestWrite] at hx
  | keys visits => simp [Call.isTestWrite] at hx

/-- After a sequence of writes, a key is bound to the entry of the last write
naming it, or as before the sequence when no write names it. -/
theorem run_lookup_lastWrite (ws : List Call) (hw : ∀ x ∈ ws, x.isTestWrite = true)
    (k : String) (c : Cache) (ha : c.items.isSome = true) :
    ∃ c2, c.run ws = some c2 ∧
      c2.lookup k = match lastWrite k ws with
        | none => c.lookup k
        | some w => w.entry := by
  induction ws generalizing c with
  | nil => exact ⟨c, rfl, rfl⟩
  | cons x xs ih =>
    obtain ⟨c1, hc1, ha1⟩ := call_isSome ha x
    obtain ⟨c2, hc2, h2⟩ := ih (fun y hy => hw y (List.mem_cons_of_mem _ hy)) c1 ha1
    refine ⟨c2, by simp [Cache.run, hc1, hc2], ?_⟩
    rw [h2]
    simp only [lastWrite]
    cases hlw : lastWrite k xs with
    | some w => rfl
    | none =>
      simp only []
      rw [call_lookup_write (hw x (List.mem_cons_self _ _)) hc1 k]
      cases hxw : x.writes k <;> simp

/-! ## Expiration and overwrite laws -/

/-- C1 as stated fails: a `PutTill` whose deadline is the zero instant, which is
strictly before the clock reading `1`, is still found by `Get`. -/
theorem C1_zero_deadline_found :
    (0 : Time) < 1 ∧
      ∃ c, NewCache.PutTill "k" "v" 0 = some c ∧
        (c.Get "k" 1).1 = ("v", true) ∧ (c.Get "k" 1).1 ≠ ("", false) := by
  refine ⟨by decide, ⟨some (AList.insert "k" ⟨"v", 0⟩ ∅)⟩, rfl, by decide, by decide⟩

/-- C1 (amended): for every allocated map, key, value, deadline `d` and clock
reading `now` with `d` strictly before `now` and `d` not the zero instant,
`PutTill k v d` completes and the `Get k` that follows at `now` returns
`("", false)`. -/
theorem C1_get_after_expired_putTill (m : Items) (k v : String) (d now : Time)
    (h : d < now) (hz : d ≠ 0) :
    ∃ c, (Cache.mk (some m)).PutTill k v d = some c ∧ (c.Get k now).1 = ("", false) := by
  refine ⟨_, assign_mk m k ⟨v, d⟩, ?_⟩
  have he : (item.mk v d).isExpired now = true := (isExpired_iff _ _).2 ⟨hz, h⟩
  rw [Get_of_expired (lookup_assign_self m k _) he]

/-- A concrete instance: a deadline `5` read at `9`, over a map that already binds the key. -/
theorem C1_get_after_expired_putTill_witness :
    ((5 : Time) < 9 ∧ (5 : Time) ≠ 0) ∧
      ∃ c, (Cache.mk (some (AList.insert "a" ⟨"x", 0⟩ ∅))).PutTill "a" "y" 5 = some c ∧
        (c.Get "a" 9).1 = ("", false) :=
  ⟨by decide, C1_get_after_expired_putTill _ "a" "y" 5 9 (by decide) (by decide)⟩

/-- C2: for every allocated map, key, value, deadline `d` and clock reading
`now` strictly before `d`, `PutTill k v d` completes and the `Get k` that
follows at `now` returns `(v, true)`. -/
theorem C2_get_after_live_putTill (m : Items) (k v : String) (d now : Time)
    (h : now < d) :
    ∃ c, (Cache.mk (some m)).PutTill k v d = some c ∧ (c.Get k now).1 = (v, true) := by
  refine ⟨_, assign_mk m k ⟨v, d⟩, ?_⟩
  have he : (item.mk v d).isExpired now = false := by
    cases hb : (item.mk v d).isExpired now with
    | false => rfl
    | true =>
      exact absurd ((isExpired_iff _ _).1 hb).2 (lt_asymm h)
  rw [Get_of_live (lookup_assign_self m k _) he]

/-- A concrete instance: a deadline `7` read at `3`, over a map that already binds the key. -/
theorem C2_get_after_live_putTill_witness :
    (3 : Time) < 7 ∧
      ∃ c, (Cache.mk (some (AList.insert "a" ⟨"x", 1⟩ ∅))).PutTill "a" "y" 7 = some c ∧
        (c.Get "a" 3).1 = ("y", true) :=
  ⟨by decide, C2_get_after_live_putTill _ "a" "y" 7 3 (by decide)⟩

/-- C3: for every allocated map (whatever entry it holds under `k`), value
`v` and clock reading `now`, `Put k v` completes, binds `k` to `v` with the
zero (unset) expiration, and the `Get k` that follows returns `(v, true)` and
leaves the cache as the write left it. -/
theorem C3_get_after_put (m : Items) (k v : String) (now : Time) :
    ∃ c, (Cache.mk (some m)).Put k v = some c ∧
      c.lookup k = some ⟨v, 0⟩ ∧ c.Get k now = ((v, true), c) := by
  refine ⟨_, assign_mk m k ⟨v, 0⟩, lookup_assign_self m k _, ?_⟩
  rw [Get_of_live (lookup_assign_self m k _) (isExpired_zero v now)]

/-! ## The enumeration `Keys` -/

/-- C4: for every cache state, clock reading `now` and visiting order that
enumerates the keys of the map, the sequence `Keys` returns has no duplicates,
its elements are exactly the keys on which `Get` at `now` reports `found = true`
in the state before the call, and its length is the number of those keys. -/
theorem C4_keys_exact (c : Cache) (order : List String) (now : Time)
    (h : order.Perm c.keyList) :
    ∃ s : Finset String, (∀ k, k ∈ s ↔ (c.Get k now).1.2 = true) ∧
      (c.Keys order now).1.Nodup ∧
      (∀ k, k ∈ (c.Keys order now).1 ↔ k ∈ s) ∧
      (c.Keys order now).1.length = s.card := by
  have hres : (c.Keys order now).1 = order.filter fun k => (c.Get k now).1.2 := by
    simp [Cache.Keys, Cache.KeysAt, keysLoop_fst]
  have hnd : (c.Keys order now).1.Nodup := by
    rw [hres]
    exact (h.nodup_iff.2 (keyList_nodup c)).filter _
  have hmem : ∀ k, k ∈ (c.Keys order now).1 ↔ (c.Get k now).1.2 = true := by
    intro k
    rw [hres, List.mem_filter]
    constructor
    · exact fun hk => hk.2
    · exact fun hk => ⟨h.mem_iff.2 (mem_keyList_of_found hk), hk⟩
  refine ⟨(c.Keys order now).1.toFinset, ?_, hnd, ?_, ?_⟩
  · intro k
    rw [List.mem_toFinset, hmem]
  · intro k
    rw [List.mem_toFinset]
  · rw [List.toFinset_card_of_nodup hnd]

/-- A concrete instance: two entries, one expired at `9`, visited in the order opposite to the list. -/
theorem C4_keys_exact_witness :
    ["a", "b"].Perm
        (Cache.mk (some (AList.insert "b" ⟨"y", 5⟩ (AList.insert "a" ⟨"x", 0⟩ ∅)))).keyList ∧
      ∃ s : Finset String,
        (∀ k, k ∈ s ↔
          ((Cache.mk (some (AList.insert "b" ⟨"y", 5⟩ (AList.insert "a" ⟨"x", 0⟩ ∅)))).Get
            k 9).1.2 = true) ∧
        ((Cache.mk (some (AList.insert "b" ⟨"y", 5⟩ (AList.insert "a" ⟨"x", 0⟩ ∅)))).Keys
          ["a", "b"] 9).1.Nodup ∧
        (∀ k, k ∈ ((Cache.mk (some (AList.insert "b" ⟨"y", 5⟩
          (AList.insert "a" ⟨"x", 0⟩ ∅)))).Keys ["a", "b"] 9).1 ↔ k ∈ s) ∧
        ((Cache.mk (some (AList.insert "b" ⟨"y", 5⟩ (AList.insert "a" ⟨"x", 0⟩ ∅)))).Keys
          ["a", "b"] 9).1.length = s.card :=
  ⟨by decide, C4_keys_exact _ ["a", "b"] 9 (by decide)⟩

/-- C8: for every cache state, clock reading `now` and visiting order that
enumerates the keys of the map, the map after `Keys` binds a key to an entry
exactly when the map before bound that key to that same entry (same value, same
deadline) and the entry is not expired at `now`; so no entry expired at `now`
is left. -/
theorem C8_keys_evicts (c : Cache) (order : List String) (now : Time)
    (h : order.Perm c.keyList) :
    (∀ k i, (c.Keys order now).2.lookup k = some i ↔
        (c.lookup k = some i ∧ i.isExpired now = false)) ∧
      (∀ k i, (c.Keys order now).2.lookup k = some i → i.isExpired now = false) := by
  have key : ∀ k i, (c.Keys order now).2.lookup k = some i ↔
      (c.lookup k = some i ∧ i.isExpired now = false) := by
    intro k i
    have hl : (c.Keys order now).2.lookup k = keepLive (c.lookup k) now := by
      simp only [Cache.Keys, Cache.KeysAt, keysLoop_lookup]
      by_cases hk : k ∈ order
      · simp [hk]
      · have hn : c.lookup k = none := by
          have hk2 : ¬ k ∈ c.keyList := fun hc => hk (h.mem_iff.2 hc)
          rw [mem_keyList_iff] at hk2
          simpa using hk2
        simp [hk, hn, keepLive]
    rw [hl]
    cases hc : c.lookup k with
    | none => simp [keepLive]
    | some j =>
      cases he : j.isExpired now with
      | true =>
        have hk : keepLive (some j) now = none := by simp [keepLive, Option.filter, he]
        rw [hk]
        constructor
        · intro hf; cases hf
        · rintro ⟨h1, h2⟩
          injection h1 with h1
          subst h1
          rw [he] at h2
          cases h2
      | false =>
        have hk : keepLive (some j) now = some j := by simp [keepLive, Option.filter, he]
        rw [hk]
        constructor
        · intro hf
          injection hf with hf
          subst hf
          exact ⟨rfl, he⟩
        · exact fun hf => hf.1
  exact ⟨key, fun k i hk => ((key k i).1 hk).2⟩

/-- A concrete instance: two entries, one expired at `9`. -/
theorem C8_keys_evicts_witness :
    ["a", "b"].Perm
        (Cache.mk (some (AList.insert "b" ⟨"y", 5⟩ (AList.insert "a" ⟨"x", 0⟩ ∅)))).keyList ∧
      ((∀ k i, ((Cache.mk (some (AList.insert "b" ⟨"y", 5⟩
            (AList.insert "a" ⟨"x", 0⟩ ∅)))).Keys ["a", "b"] 9).2.lookup k = some i ↔
          ((Cache.mk (some (AList.insert "b" ⟨"y", 5⟩
            (AList.insert "a" ⟨"x", 0⟩ ∅)))).lookup k = some i ∧ i.isExpired 9 = false)) ∧
        (∀ k i, ((Cache.mk (some (AList.insert "b" ⟨"y", 5⟩
            (AList.insert "a" ⟨"x", 0⟩ ∅)))).Keys ["a", "b"] 9).2.lookup k = some i →
          i.isExpired 9 = false)) :=
  ⟨by decide, C8_keys_evicts _ ["a", "b"] 9 (by decide)⟩

/-! ## The effect and the result of `Get` -/

/-- C7: for every cache state, key `k` and clock reading `now`: when `k` is
bound to an entry that is expired at `now`, `Get k` returns `("", false)` and
the map afterwards is the map before with `k` deleted (so `k` is unbound);
when no entry of `k` is expired at `now` (`k` unbound, or bound to a live
entry) the cache afterwards is the cache before; and in every case each other
key is bound afterwards as it was before. -/
theorem C7_get_effect (c : Cache) (k : String) (now : Time) :
    (∀ i, c.lookup k = some i → i.isExpired now = true →
        c.Get k now = (("", false), c.delete k) ∧ (c.delete k).lookup k = none) ∧
      ((∀ i, c.lookup k = some i → i.isExpired now = false) → (c.Get k now).2 = c) ∧
      (∀ k2, k2 ≠ k → (c.Get k now).2.lookup k2 = c.lookup k2) := by
  refine ⟨fun i hl he => ⟨Get_of_expired hl he, by simp [lookup_delete]⟩, fun hne => ?_,
    fun k2 hk => by simp [lookup_Get, hk]⟩
  cases hl : c.lookup k with
  | none => rw [Get_of_lookup_none now hl]
  | some i => rw [Get_of_live hl (hne i hl)]

/-- A concrete instance: `Get` of an expired entry deletes it and keeps the other entry. -/
theorem C7_get_effect_witness :
    ((Cache.mk (some (AList.insert "b" ⟨"y", 5⟩ (AList.insert "a" ⟨"x", 0⟩ ∅)))).lookup "b"
          = some ⟨"y", 5⟩ ∧ (item.mk "y" 5).isExpired 9 = true) ∧
      (Cache.mk (some (AList.insert "b" ⟨"y", 5⟩ (AList.insert "a" ⟨"x", 0⟩ ∅)))).Get "b" 9
        = (("", false), ⟨some (AList.insert "a" ⟨"x", 0⟩ ∅)⟩) :=
  ⟨by decide,
    ((C7_get_effect (Cache.mk (some (AList.insert "b" ⟨"y", 5⟩ (AList.insert "a" ⟨"x", 0⟩ ∅))))
      "b" 9).1 ⟨"y", 5⟩ (by decide) (by decide)).1.trans rfl⟩

/-- C9: for every cache state, key `k` and clock reading: if `Get k` returns
`(v, false)` then `v` is the empty string, and if it returns `(v, true)` then
`k` is bound to an entry whose stored value is exactly `v`. -/
theorem C9_get_result_shape (c : Cache) (k : String) (now : Time) :
    (∀ v, (c.Get k now).1 = (v, false) → v = "") ∧
      (∀ v, (c.Get k now).1 = (v, true) → ∃ i, c.lookup k = some i ∧ i.value = v) := by
  rw [Get_fst]
  cases hl : c.lookup k with
  | none => simp [getResult]
  | some i =>
    cases he : i.isExpired now with
    | true => simp [getResult, he]
    | false =>
      simp only [getResult, he]
      constructor
      · intro v hv; simp at hv
      · intro v hv
        simp only [Bool.false_eq_true, if_false, Prod.mk.injEq, and_true] at hv
        exact ⟨i, rfl, hv⟩

/-- A concrete instance: a stored empty string is returned as `("", true)`. -/
theorem C9_get_result_shape_witness :
    ((Cache.mk (some (AList.insert "a" ⟨"", 0⟩ ∅))).Get "a" 9).1 = ("", true) ∧
      ∃ i, (Cache.mk (some (AList.insert "a" ⟨"", 0⟩ ∅))).lookup "a" = some i ∧ i.value = "" :=
  ⟨by decide,
    (C9_get_result_shape (Cache.mk (some (AList.insert "a" ⟨"", 0⟩ ∅))) "a" 9).2 ""
      (by decide)⟩

/-! ## Sequences of calls -/

/-- C5: for every finite sequence of writes made on the cache `NewCache`
returns, each a `Put` or a `PutTill` with a non-zero deadline, every key `k` and
every clock reading `now`, the sequence completes and `Get k` at `now` returns
`(v, true)` when the last write naming `k` is a `Put` of `v`, or a `PutTill` of
`v` whose deadline is not strictly before `now`, and returns `("", false)` when
the last write naming `k` is a `PutTill` whose deadline is strictly before
`now`. -/
theorem C5_last_write_wins (ws : List Call) (hw : ∀ x ∈ ws, x.isTestWrite = true)
    (k : String) (now : Time) :
    ∃ c, NewCache.run ws = some c ∧
      (∀ v, lastWrite k ws = some (.put k v) → (c.Get k now).1 = (v, true)) ∧
      (∀ v d, lastWrite k ws = some (.putTill k v d) → ¬ d < now →
        (c.Get k now).1 = (v, true)) ∧
      (∀ v d, lastWrite k ws = some (.putTill k v d) → d < now →
        (c.Get k now).1 = ("", false)) := by
  obtain ⟨c, hc, hl⟩ := run_lookup_lastWrite ws hw k NewCache rfl
  refine ⟨c, hc, ?_, ?_, ?_⟩
  · intro v hv
    rw [hv] at hl
    rw [Get_of_live hl (isExpired_zero v now)]
  · intro v d hv hd
    rw [hv] at hl
    have he : (item.mk v d).isExpired now = false := by
      cases hb : (item.mk v d).isExpired now with
      | false => rfl
      | true => exact absurd ((isExpired_iff _ _).1 hb).2 hd
    rw [Get_of_live hl he]
  · intro v d hv hd
    rw [hv] at hl
    have hmem : Call.putTill k v d ∈ ws := by
      clear hl hc hw
      induction ws with
      | nil => simp [lastWrite] at hv
      | cons x xs ih =>
        simp only [lastWrite] at hv
        cases hlw : lastWrite k xs with
        | some w =>
          rw [hlw] at hv
          exact List.mem_cons_of_mem _ (ih (by rw [hlw]; exact hv))
        | none =>
          rw [hlw] at hv
          cases hxw : x.writes k with
          | false => simp [hxw] at hv
          | true =>
            simp only [hxw, if_true, Option.some.injEq] at hv
            rw [hv]
            exact List.mem_cons_self _ _
    have hz : d ≠ 0 := by
      have := hw _ hmem
      simpa [Call.isTestWrite, Time.IsZero] using this
    rw [Get_of_expired hl ((isExpired_iff _ _).2 ⟨hz, hd⟩)]

/-- A concrete instance: the writes of the test case with an expiring `key2`, read at `3`. -/
theorem C5_last_write_wins_witness :
    (∀ x ∈ [Call.put "key1" "value1", Call.putTill "key2" "value2" 2,
        Call.putTill "key3" "value3" 120, Call.put "key1" "anotherValue1"],
        x.isTestWrite = true) ∧
      ∃ c, NewCache.run [Call.put "key1" "value1", Call.putTill "key2" "value2" 2,
          Call.putTill "key3" "value3" 120, Call.put "key1" "anotherValue1"] = some c ∧
        (c.Get "key2" 3).1 = ("", false) := by
  refine ⟨by decide, ?_⟩
  obtain ⟨c, hc, _, _, h3⟩ :=
    C5_last_write_wins [Call.put "key1" "value1", Call.putTill "key2" "value2" 2,
      Call.putTill "key3" "value3" 120, Call.put "key1" "anotherValue1"] (by decide) "key2" 3
  exact ⟨c, hc, h3 "value2" 2 rfl (by decide)⟩

/-- C6: for every finite sequence of `Put`, `PutTill`, `Get` and `Keys` calls
made on the cache `NewCache` returns, none of its writes naming `k`, the
sequence completes, and at every clock reading `Get k` then returns
`("", false)` (and leaves the cache as it is). -/
theorem C6_absent_key (calls : List Call) (k : String)
    (hw : ∀ x ∈ calls, x.writes k = false) (now : Time) :
    ∃ c, NewCache.run calls = some c ∧ c.Get k now = (("", false), c) := by
  obtain ⟨c, hc, hl⟩ := run_lookup_none calls k hw NewCache rfl rfl
  exact ⟨c, hc, Get_of_lookup_none now hl⟩

/-- A concrete instance: a mixed sequence of calls that never writes `notExistingKey`. -/
theorem C6_absent_key_witness :
    (∀ x ∈ [Call.put "a" "x", Call.putTill "b" "y" 5, Call.get "b" 9,
        Call.keys [("a", 10)]], x.writes "notExistingKey" = false) ∧
      ∃ c, NewCache.run [Call.put "a" "x", Call.putTill "b" "y" 5, Call.get "b" 9,
          Call.keys [("a", 10)]] = some c ∧
        c.Get "notExistingKey" 11 = (("", false), c) :=
  ⟨by decide, C6_absent_key _ "notExistingKey" (by decide) 11⟩

/-- C10: for every cache state, key `k` and clock reading `t1` at which `Get k`
finds the entry of `k` expired (so it returns `("", false)` and evicts the
entry): after every sequence of further calls without a write naming `k`, which
completes, `Get k` at any clock reading `t2` returns `("", false)` and leaves
the cache unchanged. -/
theorem C10_idempotent_absence (c : Cache) (k : String) (t1 : Time) (i : item)
    (hl : c.lookup k = some i) (he : i.isExpired t1 = true)
    (calls : List Call) (hw : ∀ x ∈ calls, x.writes k = false) (t2 : Time) :
    (c.Get k t1).1 = ("", false) ∧
      ∃ c2, (c.Get k t1).2.run calls = some c2 ∧ c2.Get k t2 = (("", false), c2) := by
  have ha : c.items.isSome = true := by
    obtain ⟨_ | m⟩ := c
    · simp [Cache.lookup] at hl
    · rfl
  rw [Get_of_expired hl he]
  refine ⟨rfl, ?_⟩
  obtain ⟨c2, hc2, h2⟩ := run_lookup_none calls k hw (c.delete k)
    (by rw [delete_isSome]; exact ha) (by simp [lookup_delete])
  exact ⟨c2, hc2, Get_of_lookup_none t2 h2⟩

/-- A concrete instance: an evicted key stays absent across reads and a write to another key. -/
theorem C10_idempotent_absence_witness :
    ((Cache.mk (some (AList.insert "b" ⟨"y", 5⟩ ∅))).lookup "b" = some ⟨"y", 5⟩ ∧
        (item.mk "y" 5).isExpired 9 = true ∧
        ∀ x ∈ [Call.get "b" 2, Call.put "a" "x", Call.keys [("a", 3), ("b", 3)]],
          x.writes "b" = false) ∧
      (((Cache.mk (some (AList.insert "b" ⟨"y", 5⟩ ∅))).Get "b" 9).1 = ("", false) ∧
        ∃ c2, ((Cache.mk (some (AList.insert "b" ⟨"y", 5⟩ ∅))).Get "b" 9).2.run
            [Call.get "b" 2, Call.put "a" "x", Call.keys [("a", 3), ("b", 3)]] = some c2 ∧
          c2.Get "b" 1 = (("", false), c2)) :=
  ⟨by decide,
    C10_idempotent_absence _ "b" 9 ⟨"y", 5⟩ (by decide) (by decide) _ (by decide) 1⟩

/-! ## The expiry predicate and the effect of a write -/

/-- C11: for every entry and clock reading `now`, `isExpired` is true exactly
when the expiration is set (not the zero instant) and strictly before `now`; so
an entry with no expiration is not expired at any time, and an entry whose
expiration equals `now` is not expired. -/
theorem C11_isExpired_iff (i : item) (now : Time) :
    (i.isExpired now = true ↔ (Time.IsZero i.expiration = false ∧ i.expiration < now)) ∧
      (Time.IsZero i.expiration = true → ∀ t, i.isExpired t = false) ∧
      (i.expiration = now → i.isExpired now = false) := by
  refine ⟨?_, ?_, ?_⟩
  · rw [isExpired_iff]
    simp [Time.IsZero]
  · intro hz t
    simp [item.isExpired, hz]
  · intro he
    cases hb : i.isExpired now with
    | false => rfl
    | true =>
      have hlt := ((isExpired_iff i now).1 hb).2
      rw [he] at hlt
      exact absurd hlt (lt_irrefl now)

/-- A concrete instance: an entry whose expiration is the reading itself is not expired. -/
theorem C11_isExpired_iff_witness :
    (item.mk "v" 7).expiration = 7 ∧ (item.mk "v" 7).isExpired 7 = false :=
  ⟨rfl, (C11_isExpired_iff (item.mk "v" 7) 7).2.2 rfl⟩

/-- C12: for every allocated map, key `k`, value `v` and deadline `d` (past or
future), `PutTill k v d` completes and yields the map with `k` bound to `(v, d)`
and every other key bound as before, and `Put k v` completes and yields the map
with `k` bound to `(v, zero expiration)` and every other key bound as before;
so a write removes nothing: the written entry is in the map whatever its
deadline, and an entry under another key stays, expired or not. -/
theorem C12_write_effect (m : Items) (k v : String) (d : Time) :
    (∃ c, (Cache.mk (some m)).PutTill k v d = some c ∧
        c = ⟨some (m.insert k ⟨v, d⟩)⟩ ∧
        c.lookup k = some ⟨v, d⟩ ∧
        ∀ k2, k2 ≠ k → c.lookup k2 = (Cache.mk (some m)).lookup k2) ∧
      (∃ c, (Cache.mk (some m)).Put k v = some c ∧
        c = ⟨some (m.insert k ⟨v, 0⟩)⟩ ∧
        c.lookup k = some ⟨v, 0⟩ ∧
        ∀ k2, k2 ≠ k → c.lookup k2 = (Cache.mk (some m)).lookup k2) := by
  constructor
  · refine ⟨_, assign_mk m k ⟨v, d⟩, rfl, lookup_assign_self m k _, fun k2 hk => ?_⟩
    rw [lookup_assign (assign_mk m k ⟨v, d⟩) k2, if_neg hk]
  · refine ⟨_, assign_mk m k ⟨v, 0⟩, rfl, lookup_assign_self m k _, fun k2 hk => ?_⟩
    rw [lookup_assign (assign_mk m k ⟨v, 0⟩) k2, if_neg hk]

/-- A concrete instance: a write with a past deadline next to an entry that is
already expired leaves both in the map. -/
theorem C12_write_effect_witness :
    ∃ c, (Cache.mk (some (AList.insert "b" ⟨"y", 5⟩ ∅))).PutTill "a" "x" 3 = some c ∧
      c.lookup "a" = some ⟨"x", 3⟩ ∧ c.lookup "b" = some ⟨"y", 5⟩ := by
  obtain ⟨c, hc, _, ha, hb⟩ := (C12_write_effect (AList.insert "b" ⟨"y", 5⟩ ∅) "a" "x" 3).1
  exact ⟨c, hc, ha, (hb "b" (by decide)).trans (by decide)⟩

/-! ## Totality and the empty store -/

/-- A write on the zero-value `Cache{}`, whose map is `nil`, panics. -/
theorem assign_nil (k : String) (i : item) : (Cache.mk none).assign k i = none := rfl

/-- Every sequence of calls made on an allocated map completes and leaves the
map allocated. -/
theorem run_isSome (calls : List Call) (c : Cache) (ha : c.items.isSome = true) :
    ∃ c2, c.run calls = some c2 ∧ c2.items.isSome = true := by
  induction calls generalizing c with
  | nil => exact ⟨c, rfl, ha⟩
  | cons x xs ih =>
    obtain ⟨c1, hc1, ha1⟩ := call_isSome ha x
    obtain ⟨c2, hc2, ha2⟩ := ih c1 ha1
    exact ⟨c2, by simp [Cache.run, hc1, hc2], ha2⟩

/-- C13: every finite sequence of `Put`, `PutTill`, `Get` and `Keys` calls made
on the cache `NewCache` returns, with arbitrary keys, values, deadlines and
clock readings, completes, and the map of the cache it reaches is not `nil`; so
the two writes, the only operations with a step that can fail (the map
assignment), complete on that cache, and `Get` and `Keys`, which return on
every cache, leave its map allocated. -/
theorem C13_total (calls : List Call) :
    ∃ c, NewCache.run calls = some c ∧ c.items.isSome = true ∧
      (∀ key value, (c.Put key value).isSome = true) ∧
      (∀ key value deadline, (c.PutTill key value deadline).isSome = true) ∧
      (∀ key now, (c.Get key now).2.items.isSome = true) ∧
      (∀ visits, (c.KeysAt visits).2.items.isSome = true) := by
  obtain ⟨c, hc, ha⟩ := run_isSome calls NewCache rfl
  refine ⟨c, hc, ha, ?_, ?_, ?_, ?_⟩
  · intro key value
    obtain ⟨c2, h2, _⟩ := assign_isSome ha key ⟨value, 0⟩
    simp [Cache.Put, h2]
  · intro key value deadline
    obtain ⟨c2, h2, _⟩ := assign_isSome ha key ⟨value, deadline⟩
    simp [Cache.PutTill, h2]
  · intro key now
    rw [Get_isSome]; exact ha
  · intro visits
    rw [Cache.KeysAt, keysLoop_isSome]; exact ha

/-- C14: on the cache `NewCache` returns, at every clock reading, `Keys` (its
loop visiting the keys of the map, of which there are none) returns the empty
sequence and `Get k` returns `("", false)` for every key `k`; neither changes
the cache. -/
theorem C14_empty_store (order : List String) (now : Time) (k : String)
    (h : order.Perm NewCache.keyList) :
    NewCache.Keys order now = ([], NewCache) ∧ NewCache.Get k now = (("", false), NewCache) := by
  have ho : order = [] := List.Perm.eq_nil h
  subst ho
  exact ⟨rfl, rfl⟩

/-- A concrete instance: the two reads of the test case `empty`. -/
theorem C14_empty_store_witness :
    [].Perm NewCache.keyList ∧
      NewCache.Keys [] 4 = ([], NewCache) ∧
      NewCache.Get "anything" 4 = (("", false), NewCache) :=
  ⟨List.Perm.refl _, C14_empty_store [] 4 "anything" (List.Perm.refl _)⟩

/-! ## The zero deadline and the passing of time -/

/-- An entry that is not expired at `t` survives a `Get` of any key at `t`. -/
theorem lookup_Get_of_live {c : Cache} {k : String} {i : item} (k2 : String) (t : Time)
    (h : c.lookup k = some i) (he : i.isExpired t = false) :
    (c.Get k2 t).2.lookup k = some i := by
  rw [lookup_Get]
  by_cases hk : k = k2
  · subst hk; simp [h, keepLive, Option.filter, he]
  · simp [hk, h]

/-- An entry with the zero expiration survives the loop of `Keys`. -/
theorem keysLoop_lookup_permanent (visits : List (String × Time)) (c : Cache)
    (acc : List String) (k v : String) (h : c.lookup k = some ⟨v, 0⟩) :
    (keysLoop visits c acc).2.lookup k = some ⟨v, 0⟩ := by
  induction visits generalizing c acc with
  | nil => exact h
  | cons x rest ih =>
    obtain ⟨k2, t⟩ := x
    simp only [keysLoop]
    exact ih _ _ (lookup_Get_of_live k2 t h (isExpired_zero v t))

/-- An entry with the zero expiration survives every call that is not a write
naming its key. -/
theorem call_lookup_permanent {c c2 : Cache} {x : Call} {k v : String}
    (hx : x.writes k = false) (hc : c.call x = some c2) (h : c.lookup k = some ⟨v, 0⟩) :
    c2.lookup k = some ⟨v, 0⟩ := by
  cases x with
  | put key value =>
    have hk : k ≠ key := by
      intro hk; simp [Call.writes, hk] at hx
    rw [lookup_assign hc k, if_neg hk, h]
  | putTill key value deadline =>
    have hk : k ≠ key := by
      intro hk; simp [Call.writes, hk] at hx
    rw [lookup_assign hc k, if_neg hk, h]
  | get key now =>
    simp only [Cache.call, Option.some.injEq] at hc
    subst hc
    exact lookup_Get_of_live key now h (isExpired_zero v now)
  | keys visits =>
    simp only [Cache.call, Option.some.injEq] at hc
    subst hc
    exact keysLoop_lookup_permanent visits c [] k v h

theorem run_lookup_permanent (calls : List Call) (k v : String)
    (hw : ∀ x ∈ calls, x.writes k = false) (c : Cache)
    (ha : c.items.isSome = true) (h : c.lookup k = some ⟨v, 0⟩) :
    ∃ c2, c.run calls = some c2 ∧ c2.lookup k = some ⟨v, 0⟩ := by
  induction calls generalizing c with
  | nil => exact ⟨c, rfl, h⟩
  | cons x xs ih =>
    obtain ⟨c1, hc1, ha1⟩ := call_isSome ha x
    have h1 := call_lookup_permanent (hw x (List.mem_cons_self _ _)) hc1 h
    obtain ⟨c2, hc2, h2⟩ := ih (fun y hy => hw y (List.mem_cons_of_mem _ hy)) c1 ha1 h1
    exact ⟨c2, by simp [Cache.run, hc1, hc2], h2⟩

theorem isExpired_mono {i : item} {t1 t2 : Time} (h : t1 ≤ t2)
    (he : i.isExpired t1 = true) : i.isExpired t2 = true := by
  rw [isExpired_iff] at he ⊢
  exact ⟨he.1, lt_of_lt_of_le he.2 h⟩

/-- C15: `PutTill k v d` with `d` the zero instant does to every cache exactly
what `Put k v` does; on every allocated map it completes, the `Get k` that
follows returns `(v, true)` at every clock reading and changes nothing, and
after every sequence of further calls without a write naming `k` (so through
every `Get` and `Keys`) `k` is still bound to `v` and `Get k` still returns
`(v, true)`. -/
theorem C15_zero_deadline_is_put (m : Items) (k v : String) :
    (∀ c : Cache, c.PutTill k v 0 = c.Put k v) ∧
      ∃ c, (Cache.mk (some m)).PutTill k v 0 = some c ∧
        (∀ now, c.Get k now = ((v, true), c)) ∧
        ∀ calls : List Call, (∀ x ∈ calls, x.writes k = false) →
          ∃ c2, c.run calls = some c2 ∧ c2.lookup k = some ⟨v, 0⟩ ∧
            ∀ now, c2.Get k now = ((v, true), c2) := by
  refine ⟨fun c => rfl, _, assign_mk m k ⟨v, 0⟩, fun now => ?_, fun calls hw => ?_⟩
  · rw [Get_of_live (lookup_assign_self m k _) (isExpired_zero v now)]
  · obtain ⟨c2, hc2, h2⟩ := run_lookup_permanent calls k v hw
      (Cache.mk (some (m.insert k ⟨v, 0⟩))) rfl (lookup_assign_self m k _)
    exact ⟨c2, hc2, h2, fun now => by rw [Get_of_live h2 (isExpired_zero v now)]⟩

/-- A concrete instance: an entry written with the zero deadline is found after
reads made at late clock readings. -/
theorem C15_zero_deadline_is_put_witness :
    (∀ x ∈ [Call.get "a" 100, Call.keys [("a", 200)]], x.writes "a" = false) ∧
      ∃ c c2, NewCache.PutTill "a" "x" 0 = some c ∧
        c.run [Call.get "a" 100, Call.keys [("a", 200)]] = some c2 ∧
        (c2.Get "a" 300).1 = ("x", true) := by
  refine ⟨by decide, ?_⟩
  obtain ⟨c, hc, _, hr⟩ := (C15_zero_deadline_is_put ∅ "a" "x").2
  obtain ⟨c2, hc2, _, hg⟩ := hr [Call.get "a" 100, Call.keys [("a", 200)]] (by decide)
  exact ⟨c, c2, hc, hc2, by rw [hg 300]⟩

/-- C16: for every cache state, key `k` and clock readings `t1` not after `t2`:
if `Get k` at `t1` reports `found = false` then so does `Get k` at `t2` on the
same state; and if `Get k` at `t2` reports `found = true` then `Get k` at `t1`
returns the same pair (found, with the same value). -/
theorem C16_expiry_monotone (c : Cache) (k : String) (t1 t2 : Time) (h : t1 ≤ t2) :
    ((c.Get k t1).1.2 = false → (c.Get k t2).1.2 = false) ∧
      ((c.Get k t2).1.2 = true → (c.Get k t1).1 = (c.Get k t2).1) := by
  rw [Get_fst, Get_fst]
  cases hl : c.lookup k with
  | none => simp [getResult]
  | some i =>
    cases h1 : i.isExpired t1 with
    | true => simp [getResult, h1, isExpired_mono h h1]
    | false =>
      cases h2 : i.isExpired t2 <;> simp [getResult, h1, h2]

/-- A concrete instance: an entry with deadline `5` is absent at `6` and hence at `9`. -/
theorem C16_expiry_monotone_witness :
    ((6 : Time) ≤ 9 ∧
        ((Cache.mk (some (AList.insert "b" ⟨"y", 5⟩ ∅))).Get "b" 6).1.2 = false) ∧
      ((Cache.mk (some (AList.insert "b" ⟨"y", 5⟩ ∅))).Get "b" 9).1.2 = false :=
  ⟨by decide,
    (C16_expiry_monotone (Cache.mk (some (AList.insert "b" ⟨"y", 5⟩ ∅))) "b" 6 9
      (by decide)).1 (by decide)⟩

/-! ## Repeated reads -/

theorem Keys_fst (c : Cache) (order : List String) (now : Time) :
    (c.Keys order now).1 = order.filter fun k => (c.Get k now).1.2 := by
  simp [Cache.Keys, Cache.KeysAt, keysLoop_fst]

theorem Keys_fst_nodup (c : Cache) (order : List String) (now : Time)
    (h : order.Perm c.keyList) : (c.Keys order now).1.Nodup := by
  rw [Keys_fst]
  exact (h.nodup_iff.2 (keyList_nodup c)).filter _

theorem mem_Keys_fst (c : Cache) (order : List String) (now : Time)
    (h : order.Perm c.keyList) (k : String) :
    k ∈ (c.Keys order now).1 ↔ (c.Get k now).1.2 = true := by
  rw [Keys_fst, List.mem_filter]
  exact ⟨fun hk => hk.2, fun hk => ⟨h.mem_iff.2 (mem_keyList_of_found hk), hk⟩⟩

/-- A `Keys` made at `now` does not change what any `Get` made at `now` returns. -/
theorem Get_fst_after_Keys (c : Cache) (order : List String) (k : String) (now : Time) :
    ((c.Keys order now).2.Get k now).1 = (c.Get k now).1 := by
  rw [Get_fst, Get_fst]
  simp only [Cache.Keys, Cache.KeysAt, keysLoop_lookup]
  by_cases hk : k ∈ order
  · simp [hk, getResult_keepLive]
  · simp [hk]

/-- After a `Keys` made at `now` over all keys, no entry is expired at `now`. -/
theorem Keys_all_live (c : Cache) (order : List String) (now : Time)
    (h : order.Perm c.keyList) (k : String) (i : item)
    (hl : (c.Keys order now).2.lookup k = some i) : i.isExpired now = false := by
  simp only [Cache.Keys, Cache.KeysAt, keysLoop_lookup] at hl
  by_cases hk : k ∈ order
  · rw [if_pos hk] at hl
    cases hc : c.lookup k with
    | none => simp [hc, keepLive] at hl
    | some j =>
      cases he : j.isExpired now with
      | true => simp [hc, keepLive, Option.filter, he] at hl
      | false =>
        simp [hc, keepLive, Option.filter, he] at hl
        rw [← hl]; exact he
  · rw [if_neg hk] at hl
    have hk2 : k ∈ c.keyList := by
      rw [mem_keyList_iff, hl]; rfl
    exact absurd (h.mem_iff.2 hk2) hk

theorem Get_snd_of_all_live {c : Cache} {now : Time}
    (hall : ∀ k i, c.lookup k = some i → i.isExpired now = false) (k : String) :
    (c.Get k now).2 = c := by
  cases hl : c.lookup k with
  | none => rw [Get_of_lookup_none now hl]
  | some i => rw [Get_of_live hl (hall k i hl)]

theorem keysLoop_snd_of_all_live {c : Cache} {now : Time}
    (hall : ∀ k i, c.lookup k = some i → i.isExpired now = false)
    (order : List String) (acc : List String) :
    (keysLoop (order.map fun k => (k, now)) c acc).2 = c := by
  induction order generalizing acc with
  | nil => rfl
  | cons k rest ih =>
    simp only [List.map_cons, keysLoop, Get_snd_of_all_live hall k]
    exact ih _

/-- C17: for every cache state, clock reading `now` and keys `k` and `k2`, with
the loops of `Keys` visiting the keys of the map they range over: `Get k` at
`now` returns the same pair after a `Keys` at `now`, and after a `Get k2` at
`now`, as it does without them; and a second `Keys` at `now` returns the same
keys as the first (a rearrangement of the same sequence) and leaves the cache
as the first left it. -/
theorem C17_reads_idempotent (c : Cache) (order order2 : List String) (now : Time)
    (k k2 : String) (h1 : order.Perm c.keyList)
    (h2 : order2.Perm (c.Keys order now).2.keyList) :
    ((c.Keys order now).2.Get k now).1 = (c.Get k now).1 ∧
      ((c.Get k2 now).2.Get k now).1 = (c.Get k now).1 ∧
      (∀ x, x ∈ ((c.Keys order now).2.Keys order2 now).1 ↔ x ∈ (c.Keys order now).1) ∧
      ((c.Keys order now).2.Keys order2 now).1.Perm (c.Keys order now).1 ∧
      ((c.Keys order now).2.Keys order2 now).2 = (c.Keys order now).2 := by
  have hmem : ∀ x, x ∈ ((c.Keys order now).2.Keys order2 now).1 ↔
      x ∈ (c.Keys order now).1 := by
    intro x
    rw [mem_Keys_fst _ _ _ h2, mem_Keys_fst _ _ _ h1, Get_fst_after_Keys]
  refine ⟨Get_fst_after_Keys c order k now, Get_fst_after_Get c k2 k now, hmem, ?_, ?_⟩
  · exact (List.perm_ext_iff_of_nodup (Keys_fst_nodup _ _ _ h2)
      (Keys_fst_nodup _ _ _ h1)).2 hmem
  · exact keysLoop_snd_of_all_live (Keys_all_live c order now h1) order2 []

/-- A concrete instance: two entries, one expired at `9`; the second `Keys` visits
the one key that is left. -/
theorem C17_reads_idempotent_witness :
    (["a", "b"].Perm
        (Cache.mk (some (AList.insert "b" ⟨"y", 5⟩ (AList.insert "a" ⟨"x", 0⟩ ∅)))).keyList ∧
      ["a"].Perm ((Cache.mk (some (AList.insert "b" ⟨"y", 5⟩
        (AList.insert "a" ⟨"x", 0⟩ ∅)))).Keys ["a", "b"] 9).2.keyList) ∧
      ((((Cache.mk (some (AList.insert "b" ⟨"y", 5⟩
          (AList.insert "a" ⟨"x", 0⟩ ∅)))).Keys ["a", "b"] 9).2.Keys ["a"] 9).1.Perm
          ((Cache.mk (some (AList.insert "b" ⟨"y", 5⟩
            (AList.insert "a" ⟨"x", 0⟩ ∅)))).Keys ["a", "b"] 9).1 ∧
        (((Cache.mk (some (AList.insert "b" ⟨"y", 5⟩
          (AList.insert "a" ⟨"x", 0⟩ ∅)))).Keys ["a", "b"] 9).2.Keys ["a"] 9).2 =
          ((Cache.mk (some (AList.insert "b" ⟨"y", 5⟩
            (AList.insert "a" ⟨"x", 0⟩ ∅)))).Keys ["a", "b"] 9).2) :=
  ⟨by decide,
    (C17_reads_idempotent _ ["a", "b"] ["a"] 9 "b" "a" (by decide) (by decide)).2.2.2⟩

/-! ## `Keys` under an advancing clock -/

/-- A `Get` of one key does not change what a `Get` of another key returns,
whatever the two clock readings. -/
theorem Get_fst_after_Get_ne (c : Cache) {k k0 : String} (hne : k ≠ k0) (t t0 : Time) :
    ((c.Get k0 t0).2.Get k t).1 = (c.Get k t).1 := by
  rw [Get_fst, Get_fst, lookup_Get, if_neg hne]

/-- A key found at a clock reading is found at every earlier one. -/
theorem Get_found_of_le (c : Cache) (k : String) {t1 t2 : Time} (h : t1 ≤ t2)
    (hf : (c.Get k t2).1.2 = true) : (c.Get k t1).1.2 = true := by
  rw [Get_fst] at hf ⊢
  cases hl : c.lookup k with
  | none => simp [hl, getResult] at hf
  | some i =>
    cases h1 : i.isExpired t1 with
    | true => simp [hl, getResult, isExpired_mono h h1] at hf
    | false => simp [getResult, h1]

/-- The loop of `Keys` over pairwise distinct keys appends exactly the visited
keys that `Get` finds, in the state before the loop, at the reading of their
visit. -/
theorem keysLoop_mem (visits : List (String × Time)) (hnd : (visits.map Prod.fst).Nodup)
    (c : Cache) (acc : List String) (k : String) :
    k ∈ (keysLoop visits c acc).1 ↔
      k ∈ acc ∨ ∃ t, (k, t) ∈ visits ∧ (c.Get k t).1.2 = true := by
  induction visits generalizing c acc with
  | nil => simp [keysLoop]
  | cons x rest ih =>
    obtain ⟨k0, t0⟩ := x
    rw [List.map_cons, List.nodup_cons] at hnd
    have hne : ∀ t, (k, t) ∈ rest → k ≠ k0 := by
      intro t ht hk
      have hmem : (k, t).1 ∈ rest.map Prod.fst := List.mem_map_of_mem Prod.fst ht
      rw [hk] at hmem
      exact hnd.1 hmem
    simp only [keysLoop]
    rw [ih hnd.2]
    constructor
    · rintro (hacc | ⟨t, ht, hf⟩)
      · cases hfound : (c.Get k0 t0).1.2 with
        | false =>
          rw [hfound] at hacc
          exact Or.inl (by simpa using hacc)
        | true =>
          rw [hfound] at hacc
          simp only [if_true, List.mem_append, List.mem_singleton] at hacc
          rcases hacc with hin | heq
          · exact Or.inl hin
          · subst heq
            exact Or.inr ⟨t0, List.mem_cons_self _ _, hfound⟩
      · rw [Get_fst_after_Get_ne c (hne t ht)] at hf
        exact Or.inr ⟨t, List.mem_cons_of_mem _ ht, hf⟩
    · rintro (hacc | ⟨t, ht, hf⟩)
      · left
        cases (c.Get k0 t0).1.2 <;> simp [hacc]
      · rcases List.mem_cons.1 ht with heq | hin
        · have hk : k = k0 := congrArg Prod.fst heq
          have ht0 : t = t0 := congrArg Prod.snd heq
          subst hk; subst ht0
          left
          simp [hf]
        · right
          refine ⟨t, hin, ?_⟩
          rw [Get_fst_after_Get_ne c (hne t hin)]
          exact hf

theorem sorted_head_le {l : List Time} {a : Time} (hs : l.Sorted (· ≤ ·))
    (hf : l.head? = some a) : ∀ x ∈ l, a ≤ x := by
  obtain ⟨ys, rfl⟩ := List.head?_eq_some_iff.1 hf
  intro x hx
  rcases List.mem_cons.1 hx with rfl | hin
  · exact le_refl _
  · exact (List.pairwise_cons.1 hs).1 x hin

theorem sorted_le_getLast {l : List Time} {b : Time} (hs : l.Sorted (· ≤ ·))
    (hl : l.getLast? = some b) : ∀ x ∈ l, x ≤ b := by
  obtain ⟨ys, rfl⟩ := List.getLast?_eq_some_iff.1 hl
  intro x hx
  rcases List.mem_append.1 hx with hin | hin
  · exact (List.pairwise_append.1 hs).2.2 x hin b (List.mem_singleton_self b)
  · rw [List.mem_singleton.1 hin]

/-- C18: `Keys` takes one clock reading per visited entry.  For every cache
state, every order in which the loop visits the keys of the map and every
non-decreasing sequence of clock readings of those visits, with first reading
`tfirst` and last reading `tlast`: every key of the returned sequence is one
that `Get` finds at `tfirst` in the state before the call, and every key that
`Get` finds at `tlast` in the state before the call is in the returned
sequence. -/
theorem C18_keys_advancing_clock (c : Cache) (visits : List (String × Time))
    (tfirst tlast : Time)
    (hp : (visits.map Prod.fst).Perm c.keyList)
    (hs : (visits.map Prod.snd).Sorted (· ≤ ·))
    (hf : (visits.map Prod.snd).head? = some tfirst)
    (hl : (visits.map Prod.snd).getLast? = some tlast) :
    (∀ k, k ∈ (c.KeysAt visits).1 → (c.Get k tfirst).1.2 = true) ∧
      (∀ k, (c.Get k tlast).1.2 = true → k ∈ (c.KeysAt visits).1) := by
  have hnd : (visits.map Prod.fst).Nodup := hp.nodup_iff.2 (keyList_nodup c)
  constructor
  · intro k hk
    rw [Cache.KeysAt, keysLoop_mem visits hnd] at hk
    rcases hk with hk | ⟨t, ht, hfound⟩
    · cases hk
    · exact Get_found_of_le c k
        (sorted_head_le hs hf t (List.mem_map_of_mem Prod.snd ht)) hfound
  · intro k hfound
    rw [Cache.KeysAt, keysLoop_mem visits hnd]
    right
    have hk : k ∈ visits.map Prod.fst := hp.mem_iff.2 (mem_keyList_of_found hfound)
    obtain ⟨⟨k1, t⟩, ht, hk1⟩ := List.mem_map.1 hk
    simp only at hk1
    subst hk1
    exact ⟨t, ht, Get_found_of_le c k1
      (sorted_le_getLast hs hl t (List.mem_map_of_mem Prod.snd ht)) hfound⟩

/-- A concrete instance: three entries visited at readings `4`, `6`, `9`; the entry
with deadline `5` is visited first and kept, the one with deadline `8` is
visited last and dropped. -/
theorem C18_keys_advancing_clock_witness :
    (([("b", (4 : Time)), ("a", 6), ("d", 9)].map Prod.fst).Perm
        (Cache.mk (some (AList.insert "d" ⟨"z", 8⟩ (AList.insert "b" ⟨"y", 5⟩
          (AList.insert "a" ⟨"x", 0⟩ ∅))))).keyList ∧
      ([("b", (4 : Time)), ("a", 6), ("d", 9)].map Prod.snd).Sorted (· ≤ ·) ∧
      ([("b", (4 : Time)), ("a", 6), ("d", 9)].map Prod.snd).head? = some 4 ∧
      ([("b", (4 : Time)), ("a", 6), ("d", 9)].map Prod.snd).getLast? = some 9) ∧
      ((∀ k, k ∈ ((Cache.mk (some (AList.insert "d" ⟨"z", 8⟩ (AList.insert "b" ⟨"y", 5⟩
            (AList.insert "a" ⟨"x", 0⟩ ∅))))).KeysAt [("b", 4), ("a", 6), ("d", 9)]).1 →
          ((Cache.mk (some (AList.insert "d" ⟨"z", 8⟩ (AList.insert "b" ⟨"y", 5⟩
            (AList.insert "a" ⟨"x", 0⟩ ∅))))).Get k 4).1.2 = true) ∧
        (∀ k, ((Cache.mk (some (AList.insert "d" ⟨"z", 8⟩ (AList.insert "b" ⟨"y", 5⟩
            (AList.insert "a" ⟨"x", 0⟩ ∅))))).Get k 9).1.2 = true →
          k ∈ ((Cache.mk (some (AList.insert "d" ⟨"z", 8⟩ (AList.insert "b" ⟨"y", 5⟩
            (AList.insert "a" ⟨"x", 0⟩ ∅))))).KeysAt [("b", 4), ("a", 6), ("d", 9)]).1)) :=
  ⟨⟨by decide, by decide, rfl, rfl⟩,
    C18_keys_advancing_clock _ [("b", 4), ("a", 6), ("d", 9)] 4 9
      (by decide) (by decide) rfl rfl⟩

end cache
